import Mathlib

/-!
# Verification of the `clog` release-automation tool

Shallow embedding of the core of the `clog` repository (a semantic-version
release manager) and proofs about it.  Strings are modelled as `List Char`
(Rust `str` is UTF-8; for all comparisons performed by the source, byte order
and codepoint order coincide).  Rust `usize`/`u64` arithmetic appears only in
numeric parsing, where the source's overflow behaviour is modelled by explicit
`< 2 ^ 64` bounds.
-/

/-- ASCII decimal digit test, as used by Rust's `char::is_ascii_digit` and by
the digit classes of the SemVer regex (`\d`, `[0-9]`). -/
def isDigitC (c : Char) : Bool :=
  48 ≤ c.toNat && c.toNat ≤ 57

/-- Value of an ASCII digit character. -/
def dval (c : Char) : Nat :=
  c.toNat - 48

/-- The ASCII digit character for a value `n < 10` (as produced by Rust's
`Display` for unsigned integers). -/
def digitChar (n : Nat) : Char :=
  match n with
  | 0 => '0' | 1 => '1' | 2 => '2' | 3 => '3' | 4 => '4'
  | 5 => '5' | 6 => '6' | 7 => '7' | 8 => '8' | _ => '9'

/-- Character class `[0-9a-zA-Z-]` of the SemVer regex (prerelease and build
identifier characters). -/
def isIdentChar (c : Char) : Bool :=
  isDigitC c || (97 ≤ c.toNat && c.toNat ≤ 122) || (65 ≤ c.toNat && c.toNat ≤ 90)
    || c.toNat == 45

/-- Unicode `White_Space` test, as used by Rust's `char::is_whitespace`
(via `str::trim` / `str::trim_start`). -/
def rustIsWhitespace (c : Char) : Bool :=
  let n := c.toNat
  (9 ≤ n && n ≤ 13) || n == 32 || n == 133 || n == 160 || n == 5760
    || (8192 ≤ n && n ≤ 8202) || n == 8232 || n == 8233 || n == 8239
    || n == 8287 || n == 12288

/-- `str::trim_start`: drop leading whitespace. -/
def trimStartL (s : List Char) : List Char :=
  s.dropWhile rustIsWhitespace

/-- `str::trim`: drop leading and trailing whitespace. -/
def trimL (s : List Char) : List Char :=
  ((trimStartL s).reverse.dropWhile rustIsWhitespace).reverse

/-- `str::starts_with` on character lists (`startsWithL needle hay`). -/
def startsWithL : List Char → List Char → Bool
  | [], _ => true
  | _ :: _, [] => false
  | a :: n, b :: h => a == b && startsWithL n h

/-- `str::contains` with a literal needle: the needle occurs as a contiguous
substring of the haystack. -/
def containsSub (n : List Char) : List Char → Bool
  | [] => n.isEmpty
  | c :: t => startsWithL n (c :: t) || containsSub n t

/-- `str::split(sep)` on character lists: splitting the empty string yields
one empty piece, and adjacent separators yield empty pieces, exactly as in
Rust. -/
def splitSep (sep : Char) (s : List Char) : List (List Char) :=
  s.foldr
    (fun c acc =>
      if c = sep then [] :: acc
      else
        match acc with
        | x :: xs => (c :: x) :: xs
        | [] => [[c]])
    [[]]

/-- Split at the first occurrence of a character: `splitFirst c s = (l, some r)`
when `s = l ++ c :: r` with `c ∉ l`, and `(s, none)` when `c` does not occur. -/
def splitFirst (c : Char) : List Char → List Char × Option (List Char)
  | [] => ([], none)
  | x :: xs =>
    if x = c then ([], some xs)
    else
      match splitFirst c xs with
      | (l, r) => (x :: l, r)

/-- Join pieces with a separator character (inverse of `splitSep`). -/
def sepJoin (sep : Char) : List (List Char) → List Char
  | [] => []
  | [x] => x
  | x :: y :: ys => x ++ sep :: sepJoin sep (y :: ys)

/-- Comparison of natural numbers, as Rust's `usize::cmp` / `u64::cmp`. -/
def natCmp (m n : Nat) : Ordering :=
  if m < n then .lt else if n < m then .gt else .eq

/-- Byte/codepoint-lexicographic comparison of strings, as Rust's `str::cmp`
(UTF-8 byte order coincides with codepoint order). -/
def lexCmp : List Char → List Char → Ordering
  | [], [] => .eq
  | [], _ :: _ => .lt
  | _ :: _, [] => .gt
  | a :: as, b :: bs =>
    match natCmp a.toNat b.toNat with
    | .eq => lexCmp as bs
    | o => o

/-- Numeric value of a digit string (most significant digit first). -/
def digitsVal (ds : List Char) : Nat :=
  ds.foldl (fun a c => 10 * a + dval c) 0

/-- Decimal rendering of a natural number, as Rust's `Display` for unsigned
integers: no leading zeros, `"0"` for zero. -/
def natDigits (n : Nat) : List Char :=
  if _h : n < 10 then [digitChar n]
  else natDigits (n / 10) ++ [digitChar (n % 10)]
decreasing_by
  exact Nat.div_lt_self (by omega) (by omega)

/-- Rust's `str::parse::<u64>()`: an optional leading `+`, then one or more
ASCII digits, and the value must fit in 64 bits; anything else is an error
(`none`). -/
def parseU64 (s : List Char) : Option Nat :=
  let t := match s with
    | '+' :: rest => rest
    | other => other
  if t ≠ [] ∧ t.all isDigitC ∧ digitsVal t < 2 ^ 64 then some (digitsVal t)
  else none

section BasicLemmas

theorem splitSep_ne_nil (sep : Char) (s : List Char) : splitSep sep s ≠ [] := by
  induction s with
  | nil => simp [splitSep]
  | cons c t ih =>
    simp only [splitSep, List.foldr_cons] at *
    split
    · simp
    · match h : (t.foldr _ [[]] : List (List Char)) with
      | [] => exact absurd h ih
      | x :: xs => simp

theorem splitSep_cons_sep (sep : Char) (t : List Char) :
    splitSep sep (sep :: t) = [] :: splitSep sep t := by
  simp [splitSep]

theorem splitSep_cons_ne (sep c : Char) (t : List Char) (h : c ≠ sep) :
    splitSep sep (c :: t) =
      match splitSep sep t with
      | x :: xs => (c :: x) :: xs
      | [] => [[c]] := by
  simp [splitSep, h]

theorem sepJoin_splitSep (sep : Char) (s : List Char) :
    sepJoin sep (splitSep sep s) = s := by
  induction s with
  | nil => simp [splitSep, sepJoin]
  | cons c t ih =>
    by_cases hc : c = sep
    · subst hc
      rw [splitSep_cons_sep]
      match h : splitSep c t with
      | [] => exact absurd h (splitSep_ne_nil c t)
      | x :: xs =>
        rw [h] at ih
        simp [sepJoin, ih]
    · rw [splitSep_cons_ne sep c t hc]
      match h : splitSep sep t with
      | [] => exact absurd h (splitSep_ne_nil sep t)
      | x :: xs =>
        rw [h] at ih
        cases xs with
        | nil => simpa [sepJoin] using congrArg (c :: ·) ih
        | cons y ys => simpa [sepJoin] using congrArg (c :: ·) ih

theorem splitFirst_eq_some (c : Char) (s l r : List Char)
    (h : splitFirst c s = (l, some r)) : s = l ++ c :: r := by
  induction s generalizing l with
  | nil => simp [splitFirst] at h
  | cons x xs ih =>
    by_cases hx : x = c
    · have heq : splitFirst c (x :: xs) = ([], some xs) := by simp [splitFirst, hx]
      rw [heq] at h
      injection h with h1 h2
      injection h2 with h2
      subst h1
      subst h2
      rw [hx]
      rfl
    · simp only [splitFirst, if_neg hx] at h
      rcases hs : splitFirst c xs with ⟨l2, r2⟩
      rw [hs] at h
      simp only [Prod.mk.injEq] at h
      obtain ⟨h1, h2⟩ := h
      subst h2
      have hxs : xs = l2 ++ c :: r := ih l2 (by rw [hs])
      rw [← h1, hxs]
      rfl

theorem splitFirst_eq_none (c : Char) (s l : List Char)
    (h : splitFirst c s = (l, none)) : s = l := by
  induction s generalizing l with
  | nil =>
    simp only [splitFirst, Prod.mk.injEq] at h
    rw [← h.1]
  | cons x xs ih =>
    by_cases hx : x = c
    · have heq : splitFirst c (x :: xs) = ([], some xs) := by simp [splitFirst, hx]
      rw [heq] at h
      injection h with h1 h2
      exact Option.noConfusion h2
    · simp only [splitFirst, if_neg hx] at h
      rcases hs : splitFirst c xs with ⟨l2, r2⟩
      rw [hs] at h
      simp only [Prod.mk.injEq] at h
      obtain ⟨h1, h2⟩ := h
      subst h2
      rw [← h1, ih l2 (by rw [hs])]

theorem natCmp_eq_lt {m n : Nat} : natCmp m n = .lt ↔ m < n := by
  unfold natCmp
  split_ifs <;> simp_all <;> omega

theorem natCmp_eq_gt {m n : Nat} : natCmp m n = .gt ↔ n < m := by
  unfold natCmp
  split_ifs <;> simp_all <;> omega

theorem natCmp_eq_eq {m n : Nat} : natCmp m n = .eq ↔ m = n := by
  unfold natCmp
  split_ifs <;> simp_all <;> omega

theorem natCmp_swap (m n : Nat) : (natCmp m n).swap = natCmp n m := by
  unfold natCmp
  split_ifs <;> (try rfl) <;> exfalso <;> omega

theorem digitsVal_append_singleton (ds : List Char) (c : Char) :
    digitsVal (ds ++ [c]) = 10 * digitsVal ds + dval c := by
  simp [digitsVal, List.foldl_append]

theorem digitsVal_foldl_ge (t : List Char) (a : Nat) :
    a ≤ t.foldl (fun x c => 10 * x + dval c) a := by
  induction t generalizing a with
  | nil => simp
  | cons c t ih =>
    simp only [List.foldl_cons]
    exact le_trans (by omega) (ih (10 * a + dval c))

theorem digitsVal_head_pos (d : Char) (t : List Char) (hd : 49 ≤ d.toNat) :
    1 ≤ digitsVal (d :: t) := by
  simp only [digitsVal, List.foldl_cons]
  exact le_trans (by simp [dval]; omega) (digitsVal_foldl_ge t _)

theorem digitChar_toNat {n : Nat} (h : n ≤ 9) : (digitChar n).toNat = 48 + n := by
  interval_cases n <;> rfl

theorem digitChar_dval {c : Char} (h : isDigitC c = true) :
    digitChar (dval c) = c := by
  simp only [isDigitC, Bool.and_eq_true, decide_eq_true_eq] at h
  have h9 : dval c ≤ 9 := by simp only [dval]; omega
  refine Char.eq_of_val_eq (UInt32.toNat.inj ?_)
  show (digitChar (dval c)).toNat = c.toNat
  rw [digitChar_toNat h9]
  simp only [dval]
  omega

end BasicLemmas

/-- The numeral alternative `0|[1-9]\d*` of the SemVer regex: a canonical
decimal numeral without leading zeros. -/
def isCanonNum (ds : List Char) : Bool :=
  match ds with
  | [] => false
  | [c] => isDigitC c
  | c :: d :: t => (49 ≤ c.toNat && c.toNat ≤ 57) && (d :: t).all isDigitC

/-- One prerelease identifier, alternative
`0|[1-9]\d*|\d*[a-zA-Z-][0-9a-zA-Z-]*` of the SemVer regex: either a canonical
numeral, or a nonempty string over `[0-9a-zA-Z-]` containing a non-digit. -/
def isPreIdent (ds : List Char) : Bool :=
  isCanonNum ds || (!ds.isEmpty && ds.all isIdentChar && !ds.all isDigitC)

/-- One build-metadata identifier, `[0-9a-zA-Z-]+` in the SemVer regex. -/
def isBuildIdent (ds : List Char) : Bool :=
  !ds.isEmpty && ds.all isIdentChar

theorem isCanonNum_drop_last {d : Char} {t : List Char} {c : Char}
    (h : isCanonNum ((d :: t) ++ [c]) = true) : isCanonNum (d :: t) = true := by
  cases t with
  | nil =>
    simp only [List.cons_append, List.nil_append, isCanonNum, List.all_cons,
      List.all_nil, Bool.and_eq_true, decide_eq_true_eq] at h ⊢
    simp only [isDigitC, Bool.and_eq_true, decide_eq_true_eq]
    omega
  | cons e t2 =>
    simp only [List.cons_append, isCanonNum, List.all_cons, List.all_append,
      List.all_cons, List.all_nil, Bool.and_eq_true, decide_eq_true_eq] at h ⊢
    exact ⟨h.1, h.2.1, h.2.2.1⟩

theorem isCanonNum_last_digit {ds : List Char} {c : Char}
    (h : isCanonNum (ds ++ [c]) = true) : isDigitC c = true := by
  cases ds with
  | nil => simpa [isCanonNum] using h
  | cons d t =>
    cases t with
    | nil =>
      simp only [List.cons_append, List.nil_append, isCanonNum, List.all_cons,
        List.all_nil, Bool.and_eq_true] at h
      exact h.2.1
    | cons e t2 =>
      simp only [List.cons_append, isCanonNum, List.all_cons, List.all_append,
        List.all_cons, List.all_nil, Bool.and_eq_true] at h
      exact h.2.2.2.1

/-- A canonical numeral renders back to itself: `natDigits` inverts
`digitsVal` on strings matching `0|[1-9]\d*`. -/
theorem natDigits_digitsVal {ds : List Char} (h : isCanonNum ds = true) :
    natDigits (digitsVal ds) = ds := by
  induction ds using List.reverseRecOn with
  | nil => simp [isCanonNum] at h
  | append_singleton ds c ih =>
    cases ds with
    | nil =>
      simp only [List.nil_append] at h ⊢
      have hc : isDigitC c = true := by simpa [isCanonNum] using h
      have h9 : dval c ≤ 9 := by
        simp only [isDigitC, Bool.and_eq_true, decide_eq_true_eq] at hc
        simp only [dval]; omega
      have hval : digitsVal [c] = dval c := by simp [digitsVal]
      rw [hval, natDigits, dif_pos (by omega), digitChar_dval hc]
    | cons d t =>
      have hds : isCanonNum (d :: t) = true := isCanonNum_drop_last h
      have hc : isDigitC c = true := isCanonNum_last_digit h
      have h9 : dval c ≤ 9 := by
        simp only [isDigitC, Bool.and_eq_true, decide_eq_true_eq] at hc
        simp only [dval]; omega
      have hdpos : 49 ≤ d.toNat := by
        cases t with
        | nil =>
          simp only [List.cons_append, List.nil_append, isCanonNum,
            Bool.and_eq_true, decide_eq_true_eq] at h
          exact h.1.1
        | cons e t2 =>
          simp only [List.cons_append, isCanonNum, Bool.and_eq_true,
            decide_eq_true_eq] at h
          exact h.1.1
      have hpos : 1 ≤ digitsVal (d :: t) := digitsVal_head_pos d t hdpos
      rw [digitsVal_append_singleton]
      rw [natDigits, dif_neg (by omega)]
      have hdiv : (10 * digitsVal (d :: t) + dval c) / 10 = digitsVal (d :: t) := by
        omega
      have hmod : (10 * digitsVal (d :: t) + dval c) % 10 = dval c := by
        omega
      rw [hdiv, hmod, ih hds, digitChar_dval hc]

/-!
## The SemVer value type (`src/semver.rs`)

`SemVer { major, minor, patch, prerelease, build_meta }` with `usize` numeric
fields (64-bit) and optional raw strings for prerelease and build metadata.
-/

/-- `SemVerBump` from `src/semver.rs`, with its derived order
`None < Patch < Minor < Major`. -/
inductive SemVerBump where
  | None
  | Patch
  | Minor
  | Major
deriving DecidableEq, Repr

/-- Rank realizing the derived `Ord` of `SemVerBump`. -/
def SemVerBump.rank : SemVerBump → Nat
  | .None => 0
  | .Patch => 1
  | .Minor => 2
  | .Major => 3

/-- `std::cmp::max` on `SemVerBump` under its derived order. -/
def bumpMax (a b : SemVerBump) : SemVerBump :=
  if a.rank < b.rank then b else a

/-- The `SemVer` struct of `src/semver.rs`. -/
structure SemVer where
  major : Nat
  minor : Nat
  patch : Nat
  prerelease : Option (List Char)
  build_meta : Option (List Char)
deriving DecidableEq, Repr

/-- `SemVer::new`. -/
def SemVer.new (major minor patch : Nat)
    (prerelease build_meta : Option (List Char)) : SemVer :=
  ⟨major, minor, patch, prerelease, build_meta⟩

/-- `SemVer::version_0_1_0`. -/
def SemVer.version_0_1_0 : SemVer := ⟨0, 1, 0, none, none⟩

/-- `SemVer::version_1_0_0`. -/
def SemVer.version_1_0_0 : SemVer := ⟨1, 0, 0, none, none⟩

/-- One comparison step of `compare_prerelease` (`src/semver.rs` lines
177-193): try to parse both identifiers as `u64`; numeric pairs compare
numerically, a numeric identifier is less than a non-parsing one, and two
non-parsing identifiers compare lexically (`str::cmp`). -/
def cmpIdentPair (a b : List Char) : Ordering :=
  match parseU64 a, parseU64 b with
  | some m, some n => natCmp m n
  | some _, none => .lt
  | none, some _ => .gt
  | none, none => lexCmp a b

/-- The `zip_longest` loop of `compare_prerelease`: pairwise identifier
comparison, with the side having extra identifiers being greater. -/
def cmpIdents : List (List Char) → List (List Char) → Ordering
  | [], [] => .eq
  | _ :: _, [] => .gt
  | [], _ :: _ => .lt
  | a :: as, b :: bs =>
    match cmpIdentPair a b with
    | .eq => cmpIdents as bs
    | o => o

/-- `compare_prerelease` (`src/semver.rs` lines 171-201): split both
prerelease strings on `.` and compare the identifier sequences. -/
def compare_prerelease (a b : List Char) : Ordering :=
  cmpIdents (splitSep '.' a) (splitSep '.' b)

/-- `impl Ord for SemVer` (`src/semver.rs` lines 142-163): major, minor and
patch numerically, then no-prerelease above any prerelease, then
`compare_prerelease`. -/
def SemVer.cmp (a b : SemVer) : Ordering :=
  match natCmp a.major b.major with
  | .eq =>
    match natCmp a.minor b.minor with
    | .eq =>
      match natCmp a.patch b.patch with
      | .eq =>
        match a.prerelease, b.prerelease with
        | none, none => .eq
        | none, some _ => .gt
        | some _, none => .lt
        | some x, some y => compare_prerelease x y
      | o => o
    | o => o
  | o => o

/-- `impl PartialEq for SemVer` (`src/semver.rs` lines 131-140): equality
ignores `build_meta`. -/
def SemVer.peq (a b : SemVer) : Bool :=
  a.major == b.major && a.minor == b.minor && a.patch == b.patch
    && a.prerelease == b.prerelease

/-- `SemVer::bump` (`src/semver.rs` lines 94-107): a `Major` bump with
`major == 0` is first downgraded to `Minor`; every non-`None` bump drops
prerelease and build metadata. -/
def SemVer.bump (v : SemVer) (b : SemVerBump) : SemVer :=
  let b2 := if v.major = 0 ∧ b = SemVerBump.Major then SemVerBump.Minor else b
  match b2 with
  | .Major => SemVer.new (v.major + 1) 0 0 none none
  | .Minor => SemVer.new v.major (v.minor + 1) 0 none none
  | .Patch => SemVer.new v.major v.minor (v.patch + 1) none none
  | .None => v

/-- The prerelease step of `SemVer::cmp`: absence of a prerelease sorts above
any prerelease. -/
def optPreCmp : Option (List Char) → Option (List Char) → Ordering
  | none, none => .eq
  | none, some _ => .gt
  | some _, none => .lt
  | some x, some y => compare_prerelease x y

/-- `SemVer::parse` (`src/semver.rs` lines 67-88): the recommended SemVer
2.0.0 regex, translated structurally.  The core `X.Y.Z` part contains no `-`
and prerelease/build contain no `+`, so the full match factors as: split at
the first `+` (build metadata), split the rest at the first `-` (prerelease),
and the remaining core must be exactly three canonical numerals joined by
`.`.  The numeric captures go through `str::parse::<usize>()`, which fails
above `2^64 - 1` on the 64-bit targets the crate supports. -/
def SemVer.parse (s : List Char) : Option SemVer :=
  match splitFirst '+' s with
  | (beforePlus, buildOpt) =>
    match splitFirst '-' beforePlus with
    | (core, preOpt) =>
      match splitSep '.' core with
      | [ma, mi, pa] =>
        if isCanonNum ma && isCanonNum mi && isCanonNum pa
            && (match preOpt with
                | none => true
                | some p => (splitSep '.' p).all isPreIdent)
            && (match buildOpt with
                | none => true
                | some b => (splitSep '.' b).all isBuildIdent)
            && decide (digitsVal ma < 2 ^ 64) && decide (digitsVal mi < 2 ^ 64)
            && decide (digitsVal pa < 2 ^ 64) then
          some ⟨digitsVal ma, digitsVal mi, digitsVal pa, preOpt, buildOpt⟩
        else none
      | _ => none

/-- `impl Display for SemVer` (`src/semver.rs` lines 110-129): the four
formatting arms for the optional prerelease and build fields. -/
def SemVer.render (v : SemVer) : List Char :=
  match v.prerelease, v.build_meta with
  | none, none =>
    natDigits v.major ++ '.' :: natDigits v.minor ++ '.' :: natDigits v.patch
  | none, some meta =>
    natDigits v.major ++ '.' :: natDigits v.minor ++ '.' :: natDigits v.patch
      ++ '+' :: meta
  | some pre, none =>
    natDigits v.major ++ '.' :: natDigits v.minor ++ '.' :: natDigits v.patch
      ++ '-' :: pre
  | some pre, some meta =>
    natDigits v.major ++ '.' :: natDigits v.minor ++ '.' :: natDigits v.patch
      ++ '-' :: pre ++ '+' :: meta

/-!
## Order-theoretic facts about the comparators

`SemVer.cmp` and its ingredients are oriented and transitive comparators, in
the sense of `Batteries.OrientedCmp` / `Batteries.TransCmp`.  These facts
back the minimum-version computation of the changelog generator.
-/

instance : Batteries.OrientedCmp natCmp where
  symm x y := natCmp_swap x y

instance : Batteries.TransCmp natCmp where
  le_trans h1 h2 := by
    simp only [ne_eq, natCmp_eq_gt] at *
    omega

theorem lexCmp_swap (a b : List Char) : (lexCmp a b).swap = lexCmp b a := by
  induction a generalizing b with
  | nil => cases b <;> rfl
  | cons x xs ih =>
    cases b with
    | nil => rfl
    | cons y ys =>
      simp only [lexCmp]
      cases hxy : natCmp x.toNat y.toNat with
      | lt =>
        have h2 : natCmp y.toNat x.toNat = .gt := by rw [← natCmp_swap, hxy]; rfl
        rw [h2]
        rfl
      | eq =>
        have h2 : natCmp y.toNat x.toNat = .eq := by rw [← natCmp_swap, hxy]; rfl
        rw [h2]
        exact ih ys
      | gt =>
        have h2 : natCmp y.toNat x.toNat = .lt := by rw [← natCmp_swap, hxy]; rfl
        rw [h2]
        rfl

theorem lexCmp_le_trans {a b c : List Char} (h1 : lexCmp a b ≠ .gt)
    (h2 : lexCmp b c ≠ .gt) : lexCmp a c ≠ .gt := by
  induction a generalizing b c with
  | nil => cases c <;> simp [lexCmp]
  | cons x xs ih =>
    cases b with
    | nil => simp [lexCmp] at h1
    | cons y ys =>
      cases c with
      | nil => simp [lexCmp] at h2
      | cons z zs =>
        simp only [lexCmp] at h1 h2 ⊢
        cases hxy : natCmp x.toNat y.toNat with
        | eq =>
          have hv : x.toNat = y.toNat := natCmp_eq_eq.mp hxy
          rw [hxy] at h1
          cases hyz : natCmp y.toNat z.toNat with
          | eq =>
            rw [hyz] at h2
            rw [show natCmp x.toNat z.toNat = .eq from by
              rw [hv]; exact hyz]
            exact ih h1 h2
          | lt =>
            rw [show natCmp x.toNat z.toNat = .lt from by rw [hv]; exact hyz]
            simp
          | gt => rw [hyz] at h2; simp at h2
        | lt =>
          have hvxy : x.toNat < y.toNat := natCmp_eq_lt.mp hxy
          cases hyz : natCmp y.toNat z.toNat with
          | eq =>
            have hv : y.toNat = z.toNat := natCmp_eq_eq.mp hyz
            rw [show natCmp x.toNat z.toNat = .lt from by
              rw [← hv]; exact hxy]
            simp
          | lt =>
            have hvyz : y.toNat < z.toNat := natCmp_eq_lt.mp hyz
            rw [show natCmp x.toNat z.toNat = .lt from
              natCmp_eq_lt.mpr (by omega)]
            simp
          | gt => rw [hyz] at h2; simp at h2
        | gt => rw [hxy] at h1; simp at h1

instance : Batteries.OrientedCmp lexCmp where
  symm x y := lexCmp_swap x y

instance : Batteries.TransCmp lexCmp where
  le_trans h1 h2 := lexCmp_le_trans h1 h2

theorem cmpIdentPair_swap (a b : List Char) :
    (cmpIdentPair a b).swap = cmpIdentPair b a := by
  unfold cmpIdentPair
  cases ha : parseU64 a <;> cases hb : parseU64 b
  · exact lexCmp_swap a b
  · rfl
  · rfl
  · exact natCmp_swap _ _

theorem cmpIdentPair_le_trans {a b c : List Char}
    (h1 : cmpIdentPair a b ≠ .gt) (h2 : cmpIdentPair b c ≠ .gt) :
    cmpIdentPair a c ≠ .gt := by
  unfold cmpIdentPair at h1 h2 ⊢
  cases ha : parseU64 a <;> cases hb : parseU64 b <;> cases hc : parseU64 c <;>
    rw [ha, hb] at h1 <;> rw [hb, hc] at h2 <;> simp_all
  · exact lexCmp_le_trans h1 h2
  · simp only [ne_eq, natCmp_eq_gt] at *
    omega

instance : Batteries.OrientedCmp cmpIdentPair where
  symm x y := cmpIdentPair_swap x y

instance : Batteries.TransCmp cmpIdentPair where
  le_trans h1 h2 := cmpIdentPair_le_trans h1 h2

theorem cmpIdents_swap (a b : List (List Char)) :
    (cmpIdents a b).swap = cmpIdents b a := by
  induction a generalizing b with
  | nil => cases b <;> rfl
  | cons x xs ih =>
    cases b with
    | nil => rfl
    | cons y ys =>
      simp only [cmpIdents]
      cases hxy : cmpIdentPair x y with
      | lt =>
        have h2 : cmpIdentPair y x = .gt := by rw [← cmpIdentPair_swap, hxy]; rfl
        rw [h2]
        rfl
      | eq =>
        have h2 : cmpIdentPair y x = .eq := by rw [← cmpIdentPair_swap, hxy]; rfl
        rw [h2]
        exact ih ys
      | gt =>
        have h2 : cmpIdentPair y x = .lt := by rw [← cmpIdentPair_swap, hxy]; rfl
        rw [h2]
        rfl

theorem cmpIdents_le_trans {a b c : List (List Char)}
    (h1 : cmpIdents a b ≠ .gt) (h2 : cmpIdents b c ≠ .gt) :
    cmpIdents a c ≠ .gt := by
  induction a generalizing b c with
  | nil => cases c <;> simp [cmpIdents]
  | cons x xs ih =>
    cases b with
    | nil => simp [cmpIdents] at h1
    | cons y ys =>
      cases c with
      | nil => simp [cmpIdents] at h2
      | cons z zs =>
        simp only [cmpIdents] at h1 h2 ⊢
        cases hxy : cmpIdentPair x y with
        | eq =>
          rw [hxy] at h1
          have hcongr : cmpIdentPair x z = cmpIdentPair y z :=
            Batteries.TransCmp.cmp_congr_left hxy
          cases hyz : cmpIdentPair y z with
          | eq => rw [hyz] at h2; rw [hcongr, hyz]; exact ih h1 h2
          | lt => rw [hcongr, hyz]; simp
          | gt => rw [hyz] at h2; simp at h2
        | lt =>
          cases hyz : cmpIdentPair y z with
          | eq =>
            have hcongr : cmpIdentPair x z = cmpIdentPair x y :=
              (Batteries.TransCmp.cmp_congr_right hyz).symm
            rw [hcongr, hxy]
            simp
          | lt =>
            rw [Batteries.TransCmp.lt_trans hxy hyz]
            simp
          | gt => rw [hyz] at h2; simp at h2
        | gt => rw [hxy] at h1; simp at h1

instance : Batteries.OrientedCmp cmpIdents where
  symm x y := cmpIdents_swap x y

instance : Batteries.TransCmp cmpIdents where
  le_trans h1 h2 := cmpIdents_le_trans h1 h2

theorem compare_prerelease_swap (a b : List Char) :
    (compare_prerelease a b).swap = compare_prerelease b a :=
  cmpIdents_swap _ _

theorem compare_prerelease_le_trans {a b c : List Char}
    (h1 : compare_prerelease a b ≠ .gt) (h2 : compare_prerelease b c ≠ .gt) :
    compare_prerelease a c ≠ .gt :=
  cmpIdents_le_trans h1 h2

theorem optPreCmp_swap (a b : Option (List Char)) :
    (optPreCmp a b).swap = optPreCmp b a := by
  cases a <;> cases b
  · rfl
  · rfl
  · rfl
  · exact compare_prerelease_swap _ _

theorem optPreCmp_le_trans {a b c : Option (List Char)}
    (h1 : optPreCmp a b ≠ .gt) (h2 : optPreCmp b c ≠ .gt) :
    optPreCmp a c ≠ .gt := by
  cases a <;> cases b <;> cases c <;> simp_all [optPreCmp]
  exact compare_prerelease_le_trans h1 h2

/-- Generic step for a lexicographic comparator built by `Ordering.then` from
a numeric projection: transitivity is inherited. -/
theorem natThen_le_trans {α : Type} (f : α → Nat) (g : α → α → Ordering)
    (hg : ∀ x y z, g x y ≠ .gt → g y z ≠ .gt → g x z ≠ .gt) (x y z : α)
    (h1 : (natCmp (f x) (f y)).then (g x y) ≠ .gt)
    (h2 : (natCmp (f y) (f z)).then (g y z) ≠ .gt) :
    (natCmp (f x) (f z)).then (g x z) ≠ .gt := by
  cases hxy : natCmp (f x) (f y) with
  | gt => rw [hxy] at h1; simp [Ordering.then] at h1
  | eq =>
    have hv : f x = f y := natCmp_eq_eq.mp hxy
    rw [hxy] at h1
    simp only [Ordering.then] at h1
    cases hyz : natCmp (f y) (f z) with
    | gt => rw [hyz] at h2; simp [Ordering.then] at h2
    | eq =>
      rw [hyz] at h2
      simp only [Ordering.then] at h2
      rw [show natCmp (f x) (f z) = .eq from by rw [hv]; exact hyz]
      simpa [Ordering.then] using hg x y z h1 h2
    | lt =>
      rw [show natCmp (f x) (f z) = .lt from by rw [hv]; exact hyz]
      simp [Ordering.then]
  | lt =>
    have hvxy : f x < f y := natCmp_eq_lt.mp hxy
    cases hyz : natCmp (f y) (f z) with
    | gt => rw [hyz] at h2; simp [Ordering.then] at h2
    | eq =>
      have hv : f y = f z := natCmp_eq_eq.mp hyz
      rw [show natCmp (f x) (f z) = .lt from by rw [← hv]; exact hxy]
      simp [Ordering.then]
    | lt =>
      have hvyz : f y < f z := natCmp_eq_lt.mp hyz
      rw [show natCmp (f x) (f z) = .lt from natCmp_eq_lt.mpr (by omega)]
      simp [Ordering.then]

/-- `SemVer.cmp` written as an `Ordering.then` chain. -/
theorem semver_cmp_eq_then (a b : SemVer) :
    SemVer.cmp a b =
      (natCmp a.major b.major).then ((natCmp a.minor b.minor).then
        ((natCmp a.patch b.patch).then (optPreCmp a.prerelease b.prerelease))) := by
  unfold SemVer.cmp optPreCmp
  cases natCmp a.major b.major <;> cases natCmp a.minor b.minor <;>
    cases natCmp a.patch b.patch <;> cases a.prerelease <;> cases b.prerelease <;>
    rfl

theorem semver_cmp_swap (a b : SemVer) :
    (SemVer.cmp a b).swap = SemVer.cmp b a := by
  rw [semver_cmp_eq_then, semver_cmp_eq_then]
  rw [Ordering.swap_then, Ordering.swap_then, Ordering.swap_then]
  rw [natCmp_swap, natCmp_swap, natCmp_swap, optPreCmp_swap]

theorem semver_cmp_le_trans {a b c : SemVer} (h1 : SemVer.cmp a b ≠ .gt)
    (h2 : SemVer.cmp b c ≠ .gt) : SemVer.cmp a c ≠ .gt := by
  rw [semver_cmp_eq_then] at h1 h2 ⊢
  refine natThen_le_trans SemVer.major
    (fun x y => (natCmp x.minor y.minor).then
      ((natCmp x.patch y.patch).then (optPreCmp x.prerelease y.prerelease)))
    ?_ a b c h1 h2
  intro x y z hx hy
  refine natThen_le_trans SemVer.minor
    (fun u v => (natCmp u.patch v.patch).then (optPreCmp u.prerelease v.prerelease))
    ?_ x y z hx hy
  intro u v w hu hv
  refine natThen_le_trans SemVer.patch
    (fun p q => optPreCmp p.prerelease q.prerelease) ?_ u v w hu hv
  intro p q r hp hq
  exact optPreCmp_le_trans hp hq

instance : Batteries.OrientedCmp SemVer.cmp where
  symm x y := semver_cmp_swap x y

instance : Batteries.TransCmp SemVer.cmp where
  le_trans h1 h2 := semver_cmp_le_trans h1 h2

/-!
## Commit classification (`src/lib.rs`, `src/git.rs`)
-/

/-- The literal trailer `"Bumped-by: clog"` (`CLOG_TRAILER` in `src/lib.rs`
and `src/git.rs`). -/
def CLOG_TRAILER : List Char :=
  ['B', 'u', 'm', 'p', 'e', 'd', '-', 'b', 'y', ':', ' ', 'c', 'l', 'o', 'g']

/-- Strip one trailing carriage return, as Rust's `str::lines` does for
`\r\n` line endings. -/
def stripCr (l : List Char) : List Char :=
  if l.getLast? = some '\r' then l.dropLast else l

/-- Rust's `str::lines`: split at `\n`, strip a `\r` left at the end of a
piece by a `\r\n` ending, and treat a final line ending as optional (no
trailing empty line). -/
def rustLines (s : List Char) : List (List Char) :=
  let parts := splitSep '\n' s
  (parts.dropLast.map stripCr) ++
    (match parts.getLast? with
     | some [] => []
     | some l => [l]
     | none => [])

/-- `is_clog_bump` (`src/lib.rs` lines 186-193): some line of the message,
after trimming leading whitespace, starts with the trailer. -/
def is_clog_bump (msg : List Char) : Bool :=
  (rustLines msg).any (fun line => startsWithL CLOG_TRAILER (trimStartL line))

/-- `HistoryItemKind` (crate root, used by `src/git.rs`). -/
inductive HistoryItemKind where
  | Normal
  | ClogBump
deriving DecidableEq, Repr

/-- `CommitWrapper::parse_commit_kind` (`src/git.rs` lines 80-86): the kind is
`ClogBump` iff the message *contains* the trailer as a substring
(`str::contains`). -/
def parse_commit_kind (msg : List Char) : HistoryItemKind :=
  if containsSub CLOG_TRAILER msg then .ClogBump else .Normal

/-- Everything of the first line of a message:
`message.split("\n").next()` / the reach of `.` in an anchored regex. -/
def firstLineL (s : List Char) : List Char :=
  s.takeWhile (fun c => c ≠ '\n')

/-- The default major pattern `^.*!:` (`DEFAULT_PATTERNS` in `src/lib.rs`):
`.` does not cross a newline, so the regex matches exactly when `"!:"` occurs
inside the first line. -/
def matchesMajorPat (m : List Char) : Bool :=
  containsSub ['!', ':'] (firstLineL m)

/-- The default minor pattern `^feat:`. -/
def matchesMinorPat (m : List Char) : Bool :=
  startsWithL ['f', 'e', 'a', 't', ':'] m

/-- The default patch pattern `^fix:`. -/
def matchesPatchPat (m : List Char) : Bool :=
  startsWithL ['f', 'i', 'x', ':'] m

/-- `parse_commit_message` (`src/lib.rs` lines 152-167) under the default
patterns: trim the message, then try major, minor, patch in order. -/
def parse_commit_message (msg : List Char) : SemVerBump :=
  let m := trimL msg
  if matchesMajorPat m then .Major
  else if matchesMinorPat m then .Minor
  else if matchesPatchPat m then .Patch
  else .None

/-!
## History model and Release Planner
-/

/-- One classified history item: the `CommitWrapper` data of `src/git.rs`
that the changelog generator consumes (message and tracked version). -/
structure CommitW where
  message : List Char
  version : SemVer
deriving DecidableEq, Repr

/-- Modelled from the spec: the "unreleased window" of §4.4 — the maximal
prefix of the newest-first history whose items all report the same tracked
version (`SemVer` equality, which ignores build metadata).  The crate-root
helper `iterate_to_last_version` that realizes it is referenced by
`src/changelog.rs` and `src/git.rs` but its definition is not under `src/`. -/
def unreleasedWindow (h : List CommitW) : List CommitW :=
  match h with
  | [] => []
  | c :: _ => h.takeWhile (fun d => SemVer.peq d.version c.version)

/-- Modelled from the spec: `iterate_to_last_version` (crate root, not under
`src/`) yields the unreleased-window commits, newest first (§4.4, §4.5). -/
def iterate_to_last_version (h : List CommitW) : List CommitW :=
  unreleasedWindow h

/-- The bump-accumulation loop of `calculate_bump` (`src/lib.rs` lines
211-234): the maximum classification over the commits since the last release
(the unreleased window). -/
def calculate_bump (h : List CommitW) : SemVerBump :=
  (unreleasedWindow h).foldl
    (fun acc c => bumpMax acc (parse_commit_message c.message)) .None

/-- Modelled from the spec: the Release Planner function
`get_next_version(history, config)` used by `src/changelog.rs` is declared at
the crate root, which is not under `src/`.  Per §4.4: if the unreleased
window is empty or every commit in it classifies to `None`, there is no
pending release; otherwise the next version is the window's shared version
bumped by the maximum classification found in the window. -/
def get_next_version (h : List CommitW) : Option SemVer :=
  match h with
  | [] => none
  | c :: _ =>
    let b := calculate_bump h
    if b = SemVerBump.None then none else some (SemVer.bump c.version b)

/-- `get_changelog_message` (`src/changelog.rs` lines 109-124): the first
line of the message, if it matches any default pattern. -/
def get_changelog_message (msg : List Char) : Option (List Char) :=
  let line := firstLineL msg
  if matchesMajorPat line || matchesMinorPat line || matchesPatchPat line then
    some line
  else none

/-- `find_first_version_of_project` (`src/changelog.rs` lines 105-107):
`history.map(|c| c.version()).min()`, where Rust's `Iterator::min` keeps the
first of equally-minimal elements. -/
def find_first_version_of_project (h : List CommitW) : Option SemVer :=
  h.foldl
    (fun acc c =>
      match acc with
      | none => some c.version
      | some m =>
        if SemVer.cmp c.version m = .lt then some c.version else some m)
    none

/-- `ChangeLogEntry` (`src/changelog.rs` lines 10-15). -/
inductive ChangeLogEntry where
  | BumpVersion (v : SemVer)
  | InitialVersion (v : SemVer)
  | Entry (s : List Char)
deriving DecidableEq, Repr

/-- The walk of `get_all_changelog_entries` (`src/changelog.rs` lines
90-98): whenever a commit's version differs from the running `next_version`,
emit a `BumpVersion` heading and re-anchor; emit an `Entry` for each commit
matching a pattern. -/
def entriesLoop : List CommitW → SemVer → List ChangeLogEntry
  | [], _ => []
  | c :: rest, nv =>
    (if SemVer.peq c.version nv then [] else [ChangeLogEntry.BumpVersion nv])
      ++ (match get_changelog_message c.message with
          | some s => [ChangeLogEntry.Entry s]
          | none => [])
      ++ entriesLoop rest (if SemVer.peq c.version nv then nv else c.version)

/-- `get_all_changelog_entries` (`src/changelog.rs` lines 81-103). -/
def get_all_changelog_entries (h : List CommitW) : List ChangeLogEntry :=
  match get_next_version h with
  | none => []
  | some nv =>
    entriesLoop h nv ++
      (match find_first_version_of_project h with
       | some v => [ChangeLogEntry.InitialVersion v]
       | none => [])

/-- `get_newest_changelog_items` (`src/changelog.rs` lines 48-60): a
`BumpVersion` heading followed by an `Entry` for every unreleased-window
commit (full message). -/
def get_newest_changelog_items (h : List CommitW) : List ChangeLogEntry :=
  match get_next_version h with
  | none => []
  | some nv =>
    ChangeLogEntry.BumpVersion nv ::
      (iterate_to_last_version h).map (fun c => ChangeLogEntry.Entry c.message)

/-!
## Changelog rendering and file effects (`src/changelog.rs`)
-/

/-- One entry of the rendering contract of `render_changelog`. -/
def render_entry : ChangeLogEntry → List Char
  | .BumpVersion v =>
    ['#', ' ', 'V', 'e', 'r', 's', 'i', 'o', 'n', ' '] ++ SemVer.render v
  | .InitialVersion v =>
    ['#', ' ', 'V', 'e', 'r', 's', 'i', 'o', 'n', ' '] ++ SemVer.render v
      ++ '\n' :: ['I', 'n', 'i', 't', 'i', 'a', 'l', ' ', 'C', 'o', 'm', 'm', 'i', 't']
  | .Entry s => s

/-- `render::render_changelog` (`src/changelog.rs` lines 130-147): each
entry followed by exactly one line break. -/
def render_changelog (es : List ChangeLogEntry) : List Char :=
  es.foldl (fun acc e => acc ++ render_entry e ++ ['\n']) []

/-- `render::prepend_render_changelog` (`src/changelog.rs` lines 149-156). -/
def prepend_render_changelog (es : List ChangeLogEntry) (original : List Char) :
    List Char :=
  render_changelog es ++ original

/-- `generate_entire_changelog` (`src/changelog.rs` lines 62-79): the new
changelog file content; `File::create` writes it unconditionally, even when
there are no entries. -/
def generate_entire_changelog (h : List CommitW) : List Char :=
  render_changelog (get_all_changelog_entries h)

/-- `append_changelog` (`src/changelog.rs` lines 30-46): with no new items the
file is left untouched; otherwise the rendered block is prepended verbatim. -/
def append_changelog (h : List CommitW) (original : List Char) : List Char :=
  let changelog_entries := get_newest_changelog_items h
  if changelog_entries.isEmpty then original
  else prepend_render_changelog changelog_entries original

/-- `prepare_changelog` (`src/changelog.rs` lines 17-28): full generation when
the changelog file does not exist, incremental append when it does. -/
def prepare_changelog (h : List CommitW) :
    Option (List Char) → Option (List Char)
  | none => some (generate_entire_changelog h)
  | some orig => some (append_changelog h orig)

/-!
## Release creation (`src/lib.rs` `make_bump_commit`, `src/main.rs`)

The repository, working tree and project manifest are modelled as one record:
`history` is the classified commit sequence the History Model would produce
(newest first), `changelog` is the changelog file's content (or `none` when
absent), and `manifestVersion` is the version recorded in the project's
manifest.  The version-control backend's cleanliness and head queries are the
`clean` / `hasCommits` fields.
-/

/-- Abstract repository-plus-working-tree state. -/
structure RepoState where
  hasCommits : Bool
  clean : Bool
  history : List CommitW
  changelog : Option (List Char)
  manifestVersion : SemVer
deriving DecidableEq, Repr

/-- The release-commit message
`"chore: bump version {old} -> {new}\n\n{CLOG_TRAILER}"`. -/
def make_clog_commit_message (a b : SemVer) : List Char :=
  ['c', 'h', 'o', 'r', 'e', ':', ' ', 'b', 'u', 'm', 'p', ' ', 'v', 'e', 'r',
    's', 'i', 'o', 'n', ' ']
    ++ SemVer.render a ++ [' ', '-', '>', ' '] ++ SemVer.render b
    ++ '\n' :: '\n' :: CLOG_TRAILER

/-- `make_bump_commit` (`src/lib.rs` lines 262-316): prepare the changelog
first, then compute the bump; if it is `None`, stop (the `NoOp` outcome, `Ok`
with no further writes); otherwise adopt the next version, persist the
manifest, and commit everything as one new commit on the current branch. -/
def make_bump_commit (st : RepoState) : RepoState :=
  let st1 : RepoState :=
    { st with changelog := prepare_changelog st.history st.changelog }
  let b := calculate_bump st.history
  if b = SemVerBump.None then st1
  else
    let newV := SemVer.bump st.manifestVersion b
    let msg := make_clog_commit_message st.manifestVersion newV
    { st1 with
        manifestVersion := newV
        history := ⟨msg, newV⟩ :: st1.history
        hasCommits := true }

/-- The failures of the precondition phase of `main` (`src/main.rs` lines
31-37). -/
inductive ClogError where
  | NoCommits
  | NotClean
deriving DecidableEq, Repr

/-- The release-creation entry point (`src/main.rs` lines 23-69): `main`
first rejects a repository with no commits, then a dirty working tree
(`repo_is_clean`, `src/lib.rs` lines 195-202, with untracked files included);
only then does it plan and (after the interactive confirmation, taken here as
accepted) create the release commit.  `is_repo_ready` (`src/git.rs` lines
202-216) imposes the same two conditions.  The repository state travels
through unchanged on either failure. -/
def clog_main (st : RepoState) : Except ClogError Unit × RepoState :=
  if st.hasCommits = false then (.error .NoCommits, st)
  else if st.clean = false then (.error .NotClean, st)
  else (.ok (), make_bump_commit st)

/-!
## Rollback (`src/git.rs` `remove_last_release_commit`)

The backend state for rollback: a map from branch names to commit ids, the
`HEAD` position (attached to a named branch, or detached at a commit), and a
supply of fresh commit ids for the commits created during replay.  Names and
commit ids are numbers.  The replay loop's body (reusing each original
commit's tree, author, committer and message) only determines the *content*
of the created commits, which the rollback safety claims do not mention; a
created commit is modelled as a fresh id that `HEAD` advances to.  Backend
failures inside the loop (`find_commit`, `tree`, `commit`) are modelled by an
injected failure index `failAt`. -/

/-- `HEAD`: attached to a named branch or detached at a commit. -/
inductive HeadPos where
  | attached (name : Nat)
  | detached (oid : Nat)
deriving DecidableEq, Repr

/-- Version-control backend state for the rollback model. -/
structure GitState where
  branches : List (Nat × Nat)
  head : HeadPos
  nextOid : Nat
deriving DecidableEq, Repr

/-- `repo.find_reference(name)` on the branch map. -/
def lookupBranch (bs : List (Nat × Nat)) (n : Nat) : Option Nat :=
  match bs.find? (fun p => p.1 == n) with
  | some p => some p.2
  | none => none

/-- `reference.set_target`: retarget the named branch. -/
def setBranch (bs : List (Nat × Nat)) (n v : Nat) : List (Nat × Nat) :=
  bs.map (fun p => if p.1 == n then (p.1, v) else p)

/-- One replayed commit: `repo.commit(Some("HEAD"), ...)` with `HEAD`
detached advances `HEAD` to the new commit and touches no branch. -/
def mkReplayCommit (st : GitState) : GitState :=
  { st with head := .detached st.nextOid, nextOid := st.nextOid + 1 }

/-- The replay loop of `remove_last_release_commit` (`src/git.rs` lines
175-192): replay the given number of commits, failing at index `failAt` if
injected, and returning the state reached at the failure point. -/
def replayLoop (failAt : Option Nat) : Nat → Nat → GitState → Except GitState GitState
  | _, 0, st => .ok st
  | i, k + 1, st =>
    if failAt = some i then .error st
    else replayLoop failAt (i + 1) k (mkReplayCommit st)

/-- The failures of `remove_last_release_commit`. -/
inductive RollbackError where
  | NotAutomatedRelease
  | DetachedHeadUnsupported
  | ReplayFailed
  | MissingRef
deriving DecidableEq, Repr

/-- The current `HEAD` commit while detached
(`repo.head()?.target().unwrap()`); the attached case does not arise during
replay. -/
def headOidD (st : GitState) : Nat :=
  match st.head with
  | .detached o => o
  | .attached _ => 0

/-- `remove_last_release_commit` (`src/git.rs` lines 150-200): check rollback
eligibility (`is_last_version_bump_clog`); read the branch name behind `HEAD`,
failing with `DetachedHeadUnsupported` (the "Detached HEAD not supported"
error) before any mutation if there is none; detach to `base`; replay the
window commits except the oldest; and only then retarget the branch reference
at the final replayed commit and reattach `HEAD`.  `eligible`, `baseOid` and
`replays` abstract the data the function computes from the history before
mutating anything. -/
def remove_last_release_commit (st : GitState) (eligible : Bool) (baseOid : Nat)
    (replays : Nat) (failAt : Option Nat) : Except RollbackError Unit × GitState :=
  if eligible = false then (.error .NotAutomatedRelease, st)
  else
    match st.head with
    | .detached _ => (.error .DetachedHeadUnsupported, st)
    | .attached name =>
      let st1 : GitState := { st with head := HeadPos.detached baseOid }
      match replayLoop failAt 0 replays st1 with
      | .error stf => (.error .ReplayFailed, stf)
      | .ok st2 =>
        match lookupBranch st2.branches name with
        | none => (.error .MissingRef, st2)
        | some _ =>
          (.ok (),
            { st2 with
                branches := setBranch st2.branches name (headOidD st2)
                head := HeadPos.attached name })

/-!
## Project detection (`src/lib.rs` `detect_project`, `src/rust.rs`,
`src/python.rs`)

The project directory is a partial map from file names to file contents.  The
manifest parsers (`CargoProject::parse_cargo`, `PyProject::parse_pyproject`,
via the `toml` crate) are taken as parameters: the detection claims hold for
every parser. -/

/-- The detected project, carrying the parsed version. -/
inductive DetectedProject where
  | cargo (version : SemVer)
  | python (version : SemVer)
deriving DecidableEq, Repr

/-- `CargoProject::from_dir` (`src/rust.rs` lines 38-49): push `"cargo.toml"`
(lowercase) onto the directory path and read it; a missing file is a read
error. -/
def CargoProject_from_dir (parse_cargo : List Char → Except Unit SemVer)
    (fs : List Char → Option (List Char)) : Except Unit SemVer :=
  match fs ['c', 'a', 'r', 'g', 'o', '.', 't', 'o', 'm', 'l'] with
  | none => .error ()
  | some raw => parse_cargo raw

/-- `PyProject::from_dir` (`src/python.rs` lines 36-45): reads
`"pyproject.toml"`. -/
def PyProject_from_dir (parse_pyproject : List Char → Except Unit SemVer)
    (fs : List Char → Option (List Char)) : Except Unit SemVer :=
  match fs ['p', 'y', 'p', 'r', 'o', 'j', 'e', 'c', 't', '.', 't', 'o', 'm', 'l'] with
  | none => .error ()
  | some raw => parse_pyproject raw

/-- `detect_project` (`src/lib.rs` lines 251-259): probe for `"Cargo.toml"`
(capitalized) and, if present, construct a Cargo project — which reads
`"cargo.toml"` (lowercase); else probe for `"pyproject.toml"`; else fail. -/
def detect_project (parse_cargo parse_pyproject : List Char → Except Unit SemVer)
    (fs : List Char → Option (List Char)) : Except Unit DetectedProject :=
  if (fs ['C', 'a', 'r', 'g', 'o', '.', 't', 'o', 'm', 'l']).isSome then
    match CargoProject_from_dir parse_cargo fs with
    | .ok v => .ok (.cargo v)
    | .error e => .error e
  else if (fs ['p', 'y', 'p', 'r', 'o', 'j', 'e', 'c', 't', '.', 't', 'o', 'm', 'l']).isSome then
    match PyProject_from_dir parse_pyproject fs with
    | .ok v => .ok (.python v)
    | .error e => .error e
  else .error ()

/-!
## Spec-side definitions

Independent formalizations of what the specification asserts, to be compared
with the source-side definitions above.
-/

/-- Spec side: a numeric identifier in the sense of SemVer 2.0 — nonempty and
consisting solely of ASCII digits (no magnitude restriction). -/
def claimIsNumeric (s : List Char) : Bool :=
  !s.isEmpty && s.all isDigitC

/-- Spec side, the claim as written: numeric identifiers compare numerically
(at arbitrary precision); a numeric identifier is less than a non-numeric
one; non-numeric identifiers compare lexically. -/
def claimIdentCmpOrig (a b : List Char) : Ordering :=
  if claimIsNumeric a && claimIsNumeric b then natCmp (digitsVal a) (digitsVal b)
  else if claimIsNumeric a then .lt
  else if claimIsNumeric b then .gt
  else lexCmp a b

/-- Spec side: pairwise comparison of two identifier sequences — the first
position where the identifiers differ decides; if all common positions agree,
the longer sequence is greater. -/
def claimSeqCmp (pc : List Char → List Char → Ordering)
    (ps qs : List (List Char)) : Ordering :=
  match (ps.zip qs).find? (fun ab => pc ab.1 ab.2 != .eq) with
  | some ab => pc ab.1 ab.2
  | none => natCmp ps.length qs.length

/-- The claim's prerelease comparison, as written (arbitrary-precision
numeric identifiers). -/
def claimPrereleaseCmpOrig (a b : List Char) : Ordering :=
  claimSeqCmp claimIdentCmpOrig (splitSep '.' a) (splitSep '.' b)

/-- The amended identifier comparison: "numeric" means accepted by Rust's
`u64` parser (so at most `2^64 - 1`); digit strings beyond that bound are
treated as non-numeric and compare lexically. -/
def claimIdentCmpU64 (a b : List Char) : Ordering :=
  if (parseU64 a).isSome && (parseU64 b).isSome then
    natCmp ((parseU64 a).getD 0) ((parseU64 b).getD 0)
  else if (parseU64 a).isSome then .lt
  else if (parseU64 b).isSome then .gt
  else lexCmp a b

/-- The amended prerelease comparison. -/
def claimPrereleaseCmpU64 (a b : List Char) : Ordering :=
  claimSeqCmp claimIdentCmpU64 (splitSep '.' a) (splitSep '.' b)

section BridgingLemmas

theorem startsWithL_iff (n h : List Char) :
    startsWithL n h = true ↔ ∃ t, h = n ++ t := by
  induction n generalizing h with
  | nil => simp [startsWithL]
  | cons a nt ih =>
    cases h with
    | nil =>
      simp [startsWithL]
    | cons b ht =>
      simp only [startsWithL, Bool.and_eq_true, beq_iff_eq, ih, List.cons_append,
        List.cons.injEq]
      constructor
      · rintro ⟨hab, t, hto⟩
        exact ⟨t, hab.symm, hto⟩
      · rintro ⟨t, hab, hto⟩
        exact ⟨hab.symm, t, hto⟩

theorem containsSub_iff (n h : List Char) :
    containsSub n h = true ↔ ∃ p q, h = p ++ n ++ q := by
  induction h with
  | nil =>
    simp only [containsSub, List.isEmpty_iff]
    constructor
    · intro hn
      exact ⟨[], [], by simp [hn]⟩
    · rintro ⟨p, q, hpq⟩
      rcases List.append_eq_nil.mp (List.append_eq_nil.mp hpq.symm).1 with ⟨_, h2⟩
      exact h2
  | cons c t ih =>
    simp only [containsSub, Bool.or_eq_true, startsWithL_iff, ih]
    constructor
    · rintro (⟨s, hs⟩ | ⟨p, q, hpq⟩)
      · exact ⟨[], s, by simp [hs]⟩
      · exact ⟨c :: p, q, by simp [hpq]⟩
    · rintro ⟨p, q, hpq⟩
      cases p with
      | nil =>
        left
        exact ⟨q, by simpa using hpq⟩
      | cons d dp =>
        right
        simp only [List.cons_append, List.cons.injEq] at hpq
        exact ⟨dp, q, hpq.2⟩

theorem natCmp_succ_succ (m n : Nat) : natCmp (m + 1) (n + 1) = natCmp m n := by
  unfold natCmp
  split_ifs <;> (try rfl) <;> exfalso <;> omega

theorem ordering_bne_eq_true {o : Ordering} (h : o ≠ Ordering.eq) :
    (o != Ordering.eq) = true := by
  cases o
  · rfl
  · exact absurd rfl h
  · rfl

theorem cmpIdentPair_eq_claimU64 (a b : List Char) :
    cmpIdentPair a b = claimIdentCmpU64 a b := by
  unfold cmpIdentPair claimIdentCmpU64
  cases ha : parseU64 a <;> cases hb : parseU64 b <;> simp

theorem claimSeqCmp_nil_nil (pc : List Char → List Char → Ordering) :
    claimSeqCmp pc [] [] = .eq := rfl

theorem claimSeqCmp_cons_hd {pc : List Char → List Char → Ordering}
    {a b : List Char} (as bs : List (List Char)) (h : pc a b ≠ .eq) :
    claimSeqCmp pc (a :: as) (b :: bs) = pc a b := by
  have hfind : List.find? (fun ab => pc ab.1 ab.2 != Ordering.eq)
      ((a, b) :: as.zip bs) = some (a, b) := by
    rw [List.find?_cons, ordering_bne_eq_true h]
  unfold claimSeqCmp
  rw [List.zip_cons_cons, hfind]

theorem claimSeqCmp_cons_eq {pc : List Char → List Char → Ordering}
    {a b : List Char} (as bs : List (List Char)) (h : pc a b = .eq) :
    claimSeqCmp pc (a :: as) (b :: bs) = claimSeqCmp pc as bs := by
  have hfind : List.find? (fun ab => pc ab.1 ab.2 != Ordering.eq)
      ((a, b) :: as.zip bs)
      = List.find? (fun ab => pc ab.1 ab.2 != Ordering.eq) (as.zip bs) := by
    rw [List.find?_cons, h]
    rfl
  unfold claimSeqCmp
  rw [List.zip_cons_cons, hfind]
  cases hf : List.find? (fun ab => pc ab.1 ab.2 != Ordering.eq) (as.zip bs) with
  | some ab => rfl
  | none => exact natCmp_succ_succ as.length bs.length

theorem cmpIdents_eq_claimSeq (ps qs : List (List Char)) :
    cmpIdents ps qs = claimSeqCmp claimIdentCmpU64 ps qs := by
  induction ps generalizing qs with
  | nil =>
    cases qs with
    | nil => rfl
    | cons b bs =>
      show Ordering.lt = claimSeqCmp claimIdentCmpU64 [] (b :: bs)
      unfold claimSeqCmp
      simp only [List.zip_nil_left, List.find?_nil]
      exact (natCmp_eq_lt.mpr (by simp)).symm
  | cons a as ih =>
    cases qs with
    | nil =>
      show Ordering.gt = claimSeqCmp claimIdentCmpU64 (a :: as) []
      unfold claimSeqCmp
      simp only [List.zip_nil_right, List.find?_nil]
      exact (natCmp_eq_gt.mpr (by simp)).symm
    | cons b bs =>
      have hpair := cmpIdentPair_eq_claimU64 a b
      cases hab : cmpIdentPair a b with
      | eq =>
        rw [claimSeqCmp_cons_eq as bs (by rw [← hpair]; exact hab)]
        simp only [cmpIdents]
        rw [hab]
        exact ih bs
      | lt =>
        have hne : claimIdentCmpU64 a b ≠ .eq := by
          rw [← hpair, hab]
          simp
        rw [claimSeqCmp_cons_hd as bs hne, ← hpair]
        simp only [cmpIdents]
        rw [hab]
      | gt =>
        have hne : claimIdentCmpU64 a b ≠ .eq := by
          rw [← hpair, hab]
          simp
        rw [claimSeqCmp_cons_hd as bs hne, ← hpair]
        simp only [cmpIdents]
        rw [hab]

theorem compare_prerelease_eq_claim (a b : List Char) :
    compare_prerelease a b = claimPrereleaseCmpU64 a b :=
  cmpIdents_eq_claimSeq (splitSep '.' a) (splitSep '.' b)

theorem get_next_version_eq_none {h : List CommitW}
    (hb : calculate_bump h = .None) : get_next_version h = none := by
  cases h with
  | nil => rfl
  | cons c rest => simp [get_next_version, hb]

/-- The accumulation step of `find_first_version_of_project`:
`Option::min`-style folding that keeps the first of equally-minimal
elements. -/
def minStep (acc : Option SemVer) (v : SemVer) : Option SemVer :=
  match acc with
  | none => some v
  | some m => if SemVer.cmp v m = .lt then some v else some m

theorem find_first_version_eq_foldl (h : List CommitW) :
    find_first_version_of_project h =
      (h.map (fun c => c.version)).foldl minStep none := by
  unfold find_first_version_of_project
  rw [List.foldl_map]
  rfl

theorem foldlMin_spec (l : List SemVer) (m : SemVer) :
    ∃ r, l.foldl minStep (some m) = some r ∧ (r = m ∨ r ∈ l)
      ∧ SemVer.cmp r m ≠ .gt ∧ ∀ w ∈ l, SemVer.cmp r w ≠ .gt := by
  induction l generalizing m with
  | nil =>
    refine ⟨m, rfl, Or.inl rfl, ?_, by simp⟩
    have hrefl : SemVer.cmp m m = .eq := Batteries.OrientedCmp.cmp_refl
    rw [hrefl]
    simp
  | cons x l ih =>
    by_cases hlt : SemVer.cmp x m = .lt
    · obtain ⟨r, hfold, hmem, hrx, hall⟩ := ih x
      refine ⟨r, ?_, ?_, ?_, ?_⟩
      · simpa [minStep, hlt] using hfold
      · rcases hmem with h1 | h1
        · exact Or.inr (by simp [h1])
        · exact Or.inr (by simp [h1])
      · exact Batteries.TransCmp.le_trans hrx (by simp [hlt])
      · intro w hw
        rcases List.mem_cons.mp hw with h1 | h1
        · rw [h1]; exact hrx
        · exact hall w h1
    · obtain ⟨r, hfold, hmem, hrm, hall⟩ := ih m
      refine ⟨r, ?_, ?_, hrm, ?_⟩
      · simpa [minStep, hlt] using hfold
      · rcases hmem with h1 | h1
        · exact Or.inl h1
        · exact Or.inr (by simp [h1])
      · intro w hw
        rcases List.mem_cons.mp hw with h1 | h1
        · rw [h1]
          have hmx : SemVer.cmp m x ≠ .gt := by
            intro hg
            exact hlt (Batteries.OrientedCmp.cmp_eq_gt.mp hg)
          exact Batteries.TransCmp.le_trans hrm hmx
        · exact hall w h1

theorem find_first_version_is_min (h : List CommitW) (hne : h ≠ []) :
    ∃ v, find_first_version_of_project h = some v
      ∧ v ∈ h.map (fun c => c.version)
      ∧ ∀ w ∈ h.map (fun c => c.version), SemVer.cmp v w ≠ .gt := by
  rw [find_first_version_eq_foldl]
  cases h with
  | nil => exact absurd rfl hne
  | cons c rest =>
    rw [List.map_cons, List.foldl_cons]
    obtain ⟨r, hfold, hmem, hrm, hall⟩ := foldlMin_spec (rest.map (fun c => c.version)) c.version
    refine ⟨r, by simpa [minStep] using hfold, ?_, ?_⟩
    · rcases hmem with h1 | h1
      · simp [h1]
      · simp [h1]
    · intro w hw
      rcases List.mem_cons.mp hw with h1 | h1
      · rw [h1]; exact hrm
      · exact hall w h1

theorem replayLoop_branches (failAt : Option Nat) (k i : Nat) (st : GitState) :
    (match replayLoop failAt i k st with
     | .ok s2 => s2.branches
     | .error sf => sf.branches) = st.branches := by
  induction k generalizing i st with
  | zero => rfl
  | succ k ih =>
    unfold replayLoop
    by_cases hf : failAt = some i
    · simp [hf]
    · simpa [hf, mkReplayCommit] using ih (i + 1) { st with head := .detached st.nextOid, nextOid := st.nextOid + 1 }

theorem replayLoop_fails (failAt : Option Nat) (i : Nat) (hf : failAt = some i) :
    ∀ k j st, j ≤ i → i < j + k → ∃ stf, replayLoop failAt j k st = .error stf := by
  intro k
  induction k with
  | zero => intro j st h1 h2; omega
  | succ k ih =>
    intro j st h1 h2
    by_cases hji : i = j
    · exact ⟨st, by unfold replayLoop; rw [hf, hji]; simp⟩
    · have : ¬failAt = some j := by rw [hf]; simp; omega
      obtain ⟨stf, hstf⟩ := ih (j + 1) (mkReplayCommit st) (by omega) (by omega)
      exact ⟨stf, by unfold replayLoop; rw [if_neg this]; exact hstf⟩

theorem sepJoin_triple (ma mi pa : List Char) :
    sepJoin '.' [ma, mi, pa] = ma ++ '.' :: (mi ++ '.' :: pa) := by
  simp [sepJoin]

end BridgingLemmas

/-!
## Claim theorems
-/

/-- C7 — Formatting a SemVer value is the exact inverse of parsing for all
four combinations of optional prerelease and build fields: for every string
`a` accepted by `SemVer.parse`, rendering the parsed value reproduces `a`
exactly, and hence `parse (render (parse a)) = parse a`. -/
theorem semver_render_parse_inverse (a : List Char) (v : SemVer)
    (h : SemVer.parse a = some v) :
    SemVer.render v = a ∧ SemVer.parse (SemVer.render v) = some v := by
  have hcopy := h
  rcases hsp : splitFirst '+' a with ⟨bp, bOpt⟩
  rcases hsd : splitFirst '-' bp with ⟨core, pOpt⟩
  simp only [SemVer.parse, hsp, hsd] at h
  rcases hparts : splitSep '.' core with _ | ⟨ma, _ | ⟨mi, _ | ⟨pa, _ | ⟨x4, rest⟩⟩⟩⟩
  · rw [hparts] at h; simp at h
  · rw [hparts] at h; simp at h
  · rw [hparts] at h; simp at h
  case cons.cons.cons.nil =>
    simp only [hparts] at h
    split at h
    · rename_i hg
      injection h with hv
      subst hv
      simp only [Bool.and_eq_true] at hg
      obtain ⟨⟨⟨⟨⟨⟨⟨hma, hmi⟩, hpa⟩, hpre⟩, hbuild⟩, hd1⟩, hd2⟩, hd3⟩ := hg
      have hcore : core = ma ++ '.' :: (mi ++ '.' :: pa) := by
        have hj := sepJoin_splitSep '.' core
        rw [hparts, sepJoin_triple] at hj
        exact hj.symm
      have hr : SemVer.render ⟨digitsVal ma, digitsVal mi, digitsVal pa, pOpt, bOpt⟩ = a := by
        cases pOpt with
        | none =>
          have hbp : bp = core := splitFirst_eq_none '-' bp core hsd
          cases bOpt with
          | none =>
            have ha : a = bp := splitFirst_eq_none '+' a bp hsp
            simp only [SemVer.render]
            rw [natDigits_digitsVal hma, natDigits_digitsVal hmi,
              natDigits_digitsVal hpa, ha, hbp, hcore]
            simp
          | some b =>
            have ha : a = bp ++ '+' :: b := splitFirst_eq_some '+' a bp b hsp
            simp only [SemVer.render]
            rw [natDigits_digitsVal hma, natDigits_digitsVal hmi,
              natDigits_digitsVal hpa, ha, hbp, hcore]
            simp
        | some p =>
          have hbp : bp = core ++ '-' :: p := splitFirst_eq_some '-' bp core p hsd
          cases bOpt with
          | none =>
            have ha : a = bp := splitFirst_eq_none '+' a bp hsp
            simp only [SemVer.render]
            rw [natDigits_digitsVal hma, natDigits_digitsVal hmi,
              natDigits_digitsVal hpa, ha, hbp, hcore]
            simp
          | some b =>
            have ha : a = bp ++ '+' :: b := splitFirst_eq_some '+' a bp b hsp
            simp only [SemVer.render]
            rw [natDigits_digitsVal hma, natDigits_digitsVal hmi,
              natDigits_digitsVal hpa, ha, hbp, hcore]
            simp
      exact ⟨hr, by rw [hr]; exact hcopy⟩
    · exact absurd h (by simp)
  case cons.cons.cons.cons =>
    rw [hparts] at h
    simp at h

/-- C7 witness: the theorem applied at the concrete accepted string
`"1.2.3-rc.1+b-7"`. -/
theorem semver_render_parse_inverse_witness :
    SemVer.parse
        ['1', '.', '2', '.', '3', '-', 'r', 'c', '.', '1', '+', 'b', '-', '7']
        = some ⟨1, 2, 3, some ['r', 'c', '.', '1'], some ['b', '-', '7']⟩
      ∧ SemVer.render ⟨1, 2, 3, some ['r', 'c', '.', '1'], some ['b', '-', '7']⟩
        = ['1', '.', '2', '.', '3', '-', 'r', 'c', '.', '1', '+', 'b', '-', '7'] :=
  ⟨by decide,
    (semver_render_parse_inverse
      ['1', '.', '2', '.', '3', '-', 'r', 'c', '.', '1', '+', 'b', '-', '7']
      ⟨1, 2, 3, some ['r', 'c', '.', '1'], some ['b', '-', '7']⟩ (by decide)).1⟩

/-- C6 — For every SemVer value with major 0, a `Major` bump produces exactly
the same result as a `Minor` bump: the downgrade in `SemVer::bump`. -/
theorem major_bump_downgrade_at_zero (v : SemVer) (h : v.major = 0) :
    SemVer.bump v .Major = SemVer.bump v .Minor := by
  simp [SemVer.bump, h]

/-- C6 witness: the theorem applied at `0.3.4-rc`. -/
theorem major_bump_downgrade_at_zero_witness :
    SemVer.bump ⟨0, 3, 4, some ['r', 'c'], none⟩ .Major
      = SemVer.bump ⟨0, 3, 4, some ['r', 'c'], none⟩ .Minor :=
  major_bump_downgrade_at_zero ⟨0, 3, 4, some ['r', 'c'], none⟩ rfl

/-- C9 — Every bump other than `None` (including `Major` downgraded to
`Minor` at major 0) drops both the prerelease and the build-metadata
field. -/
theorem bump_drops_prerelease_build (v : SemVer) (b : SemVerBump)
    (hb : b ≠ .None) :
    (SemVer.bump v b).prerelease = none ∧ (SemVer.bump v b).build_meta = none := by
  cases b with
  | None => exact absurd rfl hb
  | Patch => simp [SemVer.bump, SemVer.new]
  | Minor => simp [SemVer.bump, SemVer.new]
  | Major =>
    by_cases h0 : v.major = 0
    · simp [SemVer.bump, SemVer.new, h0]
    · simp [SemVer.bump, SemVer.new, h0]

/-- C9 witness: the theorem applied at `1.2.3-rc+b.1` with a `Patch` bump. -/
theorem bump_drops_prerelease_build_witness :
    (SemVer.bump ⟨1, 2, 3, some ['r', 'c'], some ['b', '.', '1']⟩ .Patch).prerelease = none
      ∧ (SemVer.bump ⟨1, 2, 3, some ['r', 'c'], some ['b', '.', '1']⟩ .Patch).build_meta = none :=
  bump_drops_prerelease_build ⟨1, 2, 3, some ['r', 'c'], some ['b', '.', '1']⟩ .Patch
    (by simp)

/-- C1 counterexample — with equal major/minor/patch, the prerelease
identifiers `99999999999999999999` (20 nines) and `100000000000000000000`
(10^20) are both numeric per the claim, and numerically the first is
smaller; but both overflow `u64`, so `compare_prerelease` falls back to the
lexical branch and orders the first *greater*.  Both strings are accepted by
`SemVer.parse`, so this is reachable on parsed values. -/
theorem semver_order_claim_cex :
    SemVer.parse
        (['1', '.', '0', '.', '0', '-'] ++
          ['9', '9', '9', '9', '9', '9', '9', '9', '9', '9',
           '9', '9', '9', '9', '9', '9', '9', '9', '9', '9'])
      = some ⟨1, 0, 0,
          some ['9', '9', '9', '9', '9', '9', '9', '9', '9', '9',
                '9', '9', '9', '9', '9', '9', '9', '9', '9', '9'], none⟩
    ∧ SemVer.parse
        (['1', '.', '0', '.', '0', '-'] ++
          ['1', '0', '0', '0', '0', '0', '0', '0', '0', '0', '0',
           '0', '0', '0', '0', '0', '0', '0', '0', '0', '0'])
      = some ⟨1, 0, 0,
          some ['1', '0', '0', '0', '0', '0', '0', '0', '0', '0', '0',
                '0', '0', '0', '0', '0', '0', '0', '0', '0', '0'], none⟩
    ∧ SemVer.cmp
        ⟨1, 0, 0,
          some ['9', '9', '9', '9', '9', '9', '9', '9', '9', '9',
                '9', '9', '9', '9', '9', '9', '9', '9', '9', '9'], none⟩
        ⟨1, 0, 0,
          some ['1', '0', '0', '0', '0', '0', '0', '0', '0', '0', '0',
                '0', '0', '0', '0', '0', '0', '0', '0', '0', '0'], none⟩
      = .gt
    ∧ claimPrereleaseCmpOrig
        ['9', '9', '9', '9', '9', '9', '9', '9', '9', '9',
         '9', '9', '9', '9', '9', '9', '9', '9', '9', '9']
        ['1', '0', '0', '0', '0', '0', '0', '0', '0', '0', '0',
         '0', '0', '0', '0', '0', '0', '0', '0', '0', '0']
      = .lt := by
  refine ⟨by decide, by decide, by decide, by decide⟩

/-- C1 (amended) — For every pair of SemVer values with equal major, minor
and patch: a value with no prerelease is greater than one with a prerelease,
two values without prereleases are equal, and two prereleases are compared by
the pairwise identifier rule in which "numeric" means *accepted by the `u64`
parser* (value at most `2^64 - 1`): such numeric identifiers compare
numerically, a numeric identifier is less than a non-numeric one, non-numeric
identifiers (including digit strings beyond `u64`) compare lexically by
byte/codepoint order, and with all common positions equal the longer
identifier sequence is greater. -/
theorem semver_order_amended (v w : SemVer)
    (hmaj : v.major = w.major) (hmin : v.minor = w.minor)
    (hpat : v.patch = w.patch) :
    (v.prerelease = none → w.prerelease = none → SemVer.cmp v w = .eq)
    ∧ (∀ p, v.prerelease = none → w.prerelease = some p →
        SemVer.cmp v w = .gt)
    ∧ (∀ p, v.prerelease = some p → w.prerelease = none →
        SemVer.cmp v w = .lt)
    ∧ (∀ p q, v.prerelease = some p → w.prerelease = some q →
        SemVer.cmp v w = claimPrereleaseCmpU64 p q) := by
  have h1 : natCmp v.major w.major = .eq := natCmp_eq_eq.mpr hmaj
  have h2 : natCmp v.minor w.minor = .eq := natCmp_eq_eq.mpr hmin
  have h3 : natCmp v.patch w.patch = .eq := natCmp_eq_eq.mpr hpat
  refine ⟨?_, ?_, ?_, ?_⟩
  · intro hp hq
    simp [SemVer.cmp, h1, h2, h3, hp, hq]
  · intro p hp hq
    simp [SemVer.cmp, h1, h2, h3, hp, hq]
  · intro p hp hq
    simp [SemVer.cmp, h1, h2, h3, hp, hq]
  · intro p q hp hq
    simp only [SemVer.cmp, h1, h2, h3, hp, hq]
    exact compare_prerelease_eq_claim p q

/-- C1 witness: the theorem applied at `1.0.0-alpha` versus
`1.0.0-alpha.1`. -/
theorem semver_order_amended_witness :
    SemVer.cmp ⟨1, 0, 0, some ['a', 'l', 'p', 'h', 'a'], none⟩
        ⟨1, 0, 0, some ['a', 'l', 'p', 'h', 'a', '.', '1'], none⟩
      = claimPrereleaseCmpU64 ['a', 'l', 'p', 'h', 'a']
          ['a', 'l', 'p', 'h', 'a', '.', '1'] :=
  (semver_order_amended
      ⟨1, 0, 0, some ['a', 'l', 'p', 'h', 'a'], none⟩
      ⟨1, 0, 0, some ['a', 'l', 'p', 'h', 'a', '.', '1'], none⟩
      rfl rfl rfl).2.2.2 _ _ rfl rfl

/-- C2 counterexample — on the message `"see Bumped-by: clog"` no line,
after trimming leading whitespace, begins with the trailer, yet the
`src/git.rs` classifier `parse_commit_kind` reports `ClogBump` because it
only checks substring containment; the `src/lib.rs` classifier
`is_clog_bump` reports `false`. -/
theorem release_marker_claim_cex :
    parse_commit_kind (['s', 'e', 'e', ' '] ++ CLOG_TRAILER)
        = .ClogBump
      ∧ is_clog_bump (['s', 'e', 'e', ' '] ++ CLOG_TRAILER) = false := by
  refine ⟨by decide, by decide⟩

/-- C2 (amended) — the `lib.rs` classifier `is_clog_bump` returns true
exactly when some line of the message, after trimming leading whitespace,
begins with the literal trailer; the `git.rs` classifier `parse_commit_kind`
instead returns `ClogBump` exactly when the trailer occurs *anywhere* in the
message as a substring, so the two agree only when every occurrence of the
trailer starts a trimmed line. -/
theorem release_marker_amended (msg : List Char) :
    (is_clog_bump msg = true ↔
      ∃ line ∈ rustLines msg, ∃ t, trimStartL line = CLOG_TRAILER ++ t)
    ∧ (parse_commit_kind msg = .ClogBump ↔
        ∃ p q, msg = p ++ CLOG_TRAILER ++ q) := by
  constructor
  · unfold is_clog_bump
    rw [List.any_eq_true]
    constructor
    · rintro ⟨line, hmem, hsw⟩
      exact ⟨line, hmem, (startsWithL_iff _ _).mp hsw⟩
    · rintro ⟨line, hmem, t, ht⟩
      exact ⟨line, hmem, (startsWithL_iff _ _).mpr ⟨t, ht⟩⟩
  · constructor
    · intro hk
      have hc : containsSub CLOG_TRAILER msg = true := by
        by_contra hnc
        simp [parse_commit_kind, hnc] at hk
      obtain ⟨p, q, hpq⟩ := (containsSub_iff _ _).mp hc
      exact ⟨p, q, hpq⟩
    · rintro ⟨p, q, hpq⟩
      have hc : containsSub CLOG_TRAILER msg = true :=
        (containsSub_iff _ _).mpr ⟨p, q, hpq⟩
      simp [parse_commit_kind, hc]

/-- C2 witness: both classifiers fire on a message with the trailer on its
own line. -/
theorem release_marker_amended_witness :
    is_clog_bump (['x', '\n'] ++ CLOG_TRAILER) = true
      ∧ parse_commit_kind (['x', '\n'] ++ CLOG_TRAILER) = .ClogBump :=
  ⟨(release_marker_amended (['x', '\n'] ++ CLOG_TRAILER)).1.mpr
      ⟨CLOG_TRAILER, by decide, [], by decide⟩,
    (release_marker_amended (['x', '\n'] ++ CLOG_TRAILER)).2.mpr
      ⟨['x', '\n'], [], by decide⟩⟩

/-- C3 counterexample — an empty repository is not a valid root for release
creation: with no commits (and a clean tree), `main` fails up front with its
"Repo has no commits" error instead of proceeding. -/
theorem release_precondition_claim_cex :
    clog_main ⟨false, true, [], none, SemVer.version_0_1_0⟩
      = (.error .NoCommits, ⟨false, true, [], none, SemVer.version_0_1_0⟩) := rfl

/-- C3 (amended) — release creation requires both that the repository have at
least one commit (an empty repository fails up front with the no-commits
error) and that the working tree and index report zero pending changes
including untracked files; with commits present but a dirty tree it fails
with `NotClean`; in both failure cases the repository, manifest and changelog
state is returned unchanged (no mutation). -/
theorem release_precondition_amended (st : RepoState) :
    (st.hasCommits = false → clog_main st = (.error .NoCommits, st))
    ∧ (st.hasCommits = true → st.clean = false →
        clog_main st = (.error .NotClean, st)) := by
  constructor
  · intro h
    simp [clog_main, h]
  · intro h1 h2
    simp [clog_main, h1, h2]

/-- C3 witness: the theorem applied at a commitless dirty state and at a
committed dirty state. -/
theorem release_precondition_amended_witness :
    clog_main ⟨false, false, [], none, SemVer.version_0_1_0⟩
        = (.error .NoCommits, ⟨false, false, [], none, SemVer.version_0_1_0⟩)
      ∧ clog_main ⟨true, false, [], none, SemVer.version_0_1_0⟩
        = (.error .NotClean, ⟨true, false, [], none, SemVer.version_0_1_0⟩) :=
  ⟨(release_precondition_amended ⟨false, false, [], none, SemVer.version_0_1_0⟩).1 rfl,
    (release_precondition_amended ⟨true, false, [], none, SemVer.version_0_1_0⟩).2 rfl rfl⟩

/-- C4 counterexample — the spec scenario (two chore-only commits at one
version) warrants no bump, yet when no changelog file exists,
`make_bump_commit` still creates an empty changelog file (the
changelog-preparation step runs before the planner decision and
`generate_entire_changelog` writes unconditionally): the disk state is not
byte-identical. -/
theorem noop_release_claim_cex :
    calculate_bump
        [⟨['c', 'h', 'o', 'r', 'e', ':', ' ', 'a'], ⟨1, 0, 0, none, none⟩⟩,
         ⟨['c', 'h', 'o', 'r', 'e', ':', ' ', 'b'], ⟨1, 0, 0, none, none⟩⟩]
      = .None
    ∧ (make_bump_commit
        ⟨true, true,
          [⟨['c', 'h', 'o', 'r', 'e', ':', ' ', 'a'], ⟨1, 0, 0, none, none⟩⟩,
           ⟨['c', 'h', 'o', 'r', 'e', ':', ' ', 'b'], ⟨1, 0, 0, none, none⟩⟩],
          none, ⟨1, 0, 0, none, none⟩⟩).changelog = some [] := by
  refine ⟨by decide, by decide⟩

/-- C4 (amended) — when the planner warrants no bump, `make_bump_commit`
stops with the `NoOp` outcome after the changelog-preparation step: if a
changelog file already exists on disk, nothing at all is written and every
file is byte-identical; if no changelog exists, preparation creates an empty
changelog file; the manifest, history and all other state are unchanged in
either case. -/
theorem noop_release_amended (st : RepoState)
    (hb : calculate_bump st.history = .None) :
    (∀ c, st.changelog = some c → make_bump_commit st = st)
    ∧ (st.changelog = none →
        make_bump_commit st = { st with changelog := some [] }) := by
  have hgnv : get_next_version st.history = none := get_next_version_eq_none hb
  constructor
  · intro c hc
    have hprep : prepare_changelog st.history st.changelog = st.changelog := by
      rw [hc]
      simp [prepare_changelog, append_changelog, get_newest_changelog_items, hgnv]
    simp [make_bump_commit, hb, hprep]
  · intro hc
    have hprep : prepare_changelog st.history st.changelog = some [] := by
      rw [hc]
      simp [prepare_changelog, generate_entire_changelog,
        get_all_changelog_entries, hgnv, render_changelog]
    simp [make_bump_commit, hb, hprep]

/-- C4 witness: the theorem applied at a chore-only history with and without
an existing changelog. -/
theorem noop_release_amended_witness :
    make_bump_commit
        ⟨true, true, [⟨['c', 'h', 'o', 'r', 'e', ':', ' ', 'a'], ⟨1, 0, 0, none, none⟩⟩],
          some ['X'], ⟨1, 0, 0, none, none⟩⟩
      = ⟨true, true, [⟨['c', 'h', 'o', 'r', 'e', ':', ' ', 'a'], ⟨1, 0, 0, none, none⟩⟩],
          some ['X'], ⟨1, 0, 0, none, none⟩⟩
    ∧ make_bump_commit
        ⟨true, true, [⟨['c', 'h', 'o', 'r', 'e', ':', ' ', 'a'], ⟨1, 0, 0, none, none⟩⟩],
          none, ⟨1, 0, 0, none, none⟩⟩
      = ⟨true, true, [⟨['c', 'h', 'o', 'r', 'e', ':', ' ', 'a'], ⟨1, 0, 0, none, none⟩⟩],
          some [], ⟨1, 0, 0, none, none⟩⟩ :=
  ⟨(noop_release_amended
      ⟨true, true, [⟨['c', 'h', 'o', 'r', 'e', ':', ' ', 'a'], ⟨1, 0, 0, none, none⟩⟩],
        some ['X'], ⟨1, 0, 0, none, none⟩⟩ (by decide)).1 ['X'] rfl,
    (noop_release_amended
      ⟨true, true, [⟨['c', 'h', 'o', 'r', 'e', ':', ' ', 'a'], ⟨1, 0, 0, none, none⟩⟩],
        none, ⟨1, 0, 0, none, none⟩⟩ (by decide)).2 rfl⟩

/-- C5 — rollback updates the named branch reference only in the final step:
with a detached `HEAD` it fails up front with `DetachedHeadUnsupported`,
returning the state unchanged; and whenever the replay loop fails at any
index, the run ends in `ReplayFailed` with the branch map exactly as it
started (only `HEAD` is left detached on the partial chain). -/
theorem rollback_branch_ref_safety (st : GitState) (base replays : Nat)
    (failAt : Option Nat) :
    (∀ o, st.head = .detached o →
      remove_last_release_commit st true base replays failAt
        = (.error .DetachedHeadUnsupported, st))
    ∧ (∀ n i, st.head = .attached n → failAt = some i → i < replays →
        ∃ stf, remove_last_release_commit st true base replays failAt
            = (.error .ReplayFailed, stf) ∧ stf.branches = st.branches) := by
  constructor
  · intro o ho
    simp [remove_last_release_commit, ho]
  · intro n i hn hf hi
    obtain ⟨stf, hstf⟩ := replayLoop_fails failAt i hf replays 0
      { st with head := .detached base } (by omega) (by omega)
    have hbr := replayLoop_branches failAt replays 0
      { st with head := .detached base }
    rw [hstf] at hbr
    refine ⟨stf, ?_, hbr⟩
    simp [remove_last_release_commit, hn, hstf]

/-- C5 witness: the theorem applied at a one-branch state, detached and
attached with an injected failure at the second replay. -/
theorem rollback_branch_ref_safety_witness :
    remove_last_release_commit ⟨[(5, 7)], .detached 3, 10⟩ true 2 3 none
        = (.error .DetachedHeadUnsupported, ⟨[(5, 7)], .detached 3, 10⟩)
      ∧ ∃ stf, remove_last_release_commit ⟨[(5, 7)], .attached 5, 10⟩ true 2 3 (some 1)
          = (.error .ReplayFailed, stf) ∧ stf.branches = [(5, 7)] :=
  ⟨(rollback_branch_ref_safety ⟨[(5, 7)], .detached 3, 10⟩ 2 3 none).1 3 rfl,
    (rollback_branch_ref_safety ⟨[(5, 7)], .attached 5, 10⟩ 2 3 (some 1)).2 5 1 rfl rfl
      (by omega)⟩

/-- C8 — on the history `["feat: test 1"@0.1.0, "fix: test 2"@0.1.0]` with
the default patterns, full changelog generation yields exactly
`[BumpVersion 0.2.0, Entry "feat: test 1", Entry "fix: test 2",
InitialVersion 0.1.0]`; and in general, whenever a next version exists, the
entry list ends with `InitialVersion v` where `v` is the minimum version
value observed across the whole history. -/
theorem changelog_entries_correct :
    (get_all_changelog_entries
        [⟨['f', 'e', 'a', 't', ':', ' ', 't', 'e', 's', 't', ' ', '1'],
            ⟨0, 1, 0, none, none⟩⟩,
         ⟨['f', 'i', 'x', ':', ' ', 't', 'e', 's', 't', ' ', '2'],
            ⟨0, 1, 0, none, none⟩⟩]
      = [.BumpVersion ⟨0, 2, 0, none, none⟩,
         .Entry ['f', 'e', 'a', 't', ':', ' ', 't', 'e', 's', 't', ' ', '1'],
         .Entry ['f', 'i', 'x', ':', ' ', 't', 'e', 's', 't', ' ', '2'],
         .InitialVersion ⟨0, 1, 0, none, none⟩])
    ∧ (∀ h nv, get_next_version h = some nv →
        ∃ v, find_first_version_of_project h = some v
          ∧ v ∈ h.map (fun c => c.version)
          ∧ (∀ w ∈ h.map (fun c => c.version), SemVer.cmp v w ≠ .gt)
          ∧ (get_all_changelog_entries h).getLast?
              = some (.InitialVersion v)) := by
  constructor
  · decide
  · intro h nv hnv
    have hne : h ≠ [] := by
      intro he
      rw [he] at hnv
      simp [get_next_version] at hnv
    obtain ⟨v, hv, hmem, hmin⟩ := find_first_version_is_min h hne
    refine ⟨v, hv, hmem, hmin, ?_⟩
    unfold get_all_changelog_entries
    rw [hnv, hv]
    exact List.getLast?_concat _

/-- C8 witness: the general part applied at the concrete example history. -/
theorem changelog_entries_correct_witness :
    ∃ v, find_first_version_of_project
          ([⟨['f', 'e', 'a', 't', ':', ' ', 't', 'e', 's', 't', ' ', '1'],
              ⟨0, 1, 0, none, none⟩⟩,
            ⟨['f', 'i', 'x', ':', ' ', 't', 'e', 's', 't', ' ', '2'],
              ⟨0, 1, 0, none, none⟩⟩] : List CommitW) = some v
      ∧ v ∈ List.map (fun c => c.version)
          ([⟨['f', 'e', 'a', 't', ':', ' ', 't', 'e', 's', 't', ' ', '1'],
              ⟨0, 1, 0, none, none⟩⟩,
            ⟨['f', 'i', 'x', ':', ' ', 't', 'e', 's', 't', ' ', '2'],
              ⟨0, 1, 0, none, none⟩⟩] : List CommitW)
      ∧ (∀ w ∈ List.map (fun c => c.version)
          ([⟨['f', 'e', 'a', 't', ':', ' ', 't', 'e', 's', 't', ' ', '1'],
              ⟨0, 1, 0, none, none⟩⟩,
            ⟨['f', 'i', 'x', ':', ' ', 't', 'e', 's', 't', ' ', '2'],
              ⟨0, 1, 0, none, none⟩⟩] : List CommitW), SemVer.cmp v w ≠ .gt)
      ∧ (get_all_changelog_entries
          ([⟨['f', 'e', 'a', 't', ':', ' ', 't', 'e', 's', 't', ' ', '1'],
              ⟨0, 1, 0, none, none⟩⟩,
            ⟨['f', 'i', 'x', ':', ' ', 't', 'e', 's', 't', ' ', '2'],
              ⟨0, 1, 0, none, none⟩⟩] : List CommitW)).getLast?
          = some (.InitialVersion v) :=
  changelog_entries_correct.2
    ([⟨['f', 'e', 'a', 't', ':', ' ', 't', 'e', 's', 't', ' ', '1'],
        ⟨0, 1, 0, none, none⟩⟩,
      ⟨['f', 'i', 'x', ':', ' ', 't', 'e', 's', 't', ' ', '2'],
        ⟨0, 1, 0, none, none⟩⟩] : List CommitW)
    ⟨0, 2, 0, none, none⟩ (by decide)

/-- C10 — project detection probes for `"Cargo.toml"` but project
construction reads `"cargo.toml"`: on a case-sensitive filesystem containing
the former and not the latter, `detect_project` returns an error instead of a
Cargo project, for every manifest parser. -/
theorem detect_project_case_mismatch
    (parse_cargo parse_pyproject : List Char → Except Unit SemVer)
    (fs : List Char → Option (List Char))
    (hup : (fs ['C', 'a', 'r', 'g', 'o', '.', 't', 'o', 'm', 'l']).isSome = true)
    (hlow : fs ['c', 'a', 'r', 'g', 'o', '.', 't', 'o', 'm', 'l'] = none) :
    detect_project parse_cargo parse_pyproject fs = .error () := by
  simp [detect_project, CargoProject_from_dir, hup, hlow]

/-- C10 witness: the theorem applied at a directory holding only
`Cargo.toml`. -/
theorem detect_project_case_mismatch_witness :
    detect_project (fun _ => .ok SemVer.version_0_1_0)
        (fun _ => .ok SemVer.version_0_1_0)
        (fun s =>
          if s = ['C', 'a', 'r', 'g', 'o', '.', 't', 'o', 'm', 'l'] then some []
          else none)
      = .error () :=
  detect_project_case_mismatch _ _ _ (by decide) (by decide)
